import Mathlib

/-!
# Verification of the filetree-forge core

A shallow embedding of the marker-based filesystem refactoring core of the
`filetree-forge` repository: the path safety validator (`PathUtils`), the
markdown tree parser (`MarkdownParser`), the structure validator
(`StructureValidator`), the operation extractor (`OperationExtractor`) and the
operation scheduler (`OperationExecutor.sortOperations` /
`ApplyEngine.sortOperations`).

Strings are modelled as `List Char` (the sequence of code points of the
JavaScript string), which keeps every definition executable and
kernel-evaluable.  JavaScript regular-expression operations used by the source
are translated into explicit scanning functions over `List Char`, following
the backtracking semantics of the concrete regexes that appear in the code.
Node's `path` module functions (`resolve`, `normalize`, `relative`,
`isAbsolute`) are modelled for POSIX separators, which is the semantics the
specification describes.
-/

namespace FiletreeForge

/-! ## Character classes

`jsWs` is the JavaScript `\s` class (also the set trimmed by
`String.prototype.trim`); `lineTerm` is the set of line terminators excluded
by the regex metacharacter `.`; `wordChar` is the JavaScript `\w` class. -/

def jsWs (c : Char) : Bool :=
  c.toNat = 32 || c.toNat = 9 || c.toNat = 10 || c.toNat = 11 ||
  c.toNat = 12 || c.toNat = 13 || c.toNat = 160 || c.toNat = 0x1680 ||
  (0x2000 ≤ c.toNat && c.toNat ≤ 0x200a) || c.toNat = 0x2028 ||
  c.toNat = 0x2029 || c.toNat = 0x202f || c.toNat = 0x205f ||
  c.toNat = 0x3000 || c.toNat = 0xfeff

def lineTerm (c : Char) : Bool :=
  c.toNat = 10 || c.toNat = 13 || c.toNat = 0x2028 || c.toNat = 0x2029

def wordChar (c : Char) : Bool :=
  (65 ≤ c.toNat && c.toNat ≤ 90) || (97 ≤ c.toNat && c.toNat ≤ 122) ||
  (48 ≤ c.toNat && c.toNat ≤ 57) || c.toNat = 95

/-- JavaScript `String.prototype.trim`: strip `jsWs` from both ends. -/
def jsTrim (l : List Char) : List Char :=
  ((l.dropWhile jsWs).reverse.dropWhile jsWs).reverse

/-! ## Splitting on a path separator -/

/-- Split a character list on `'/'` (`String.prototype.split("/")` /
`path.sep` splitting; every JavaScript split on a one-character separator
yields one piece more than the number of separators). -/
def splitSlash : List Char → List (List Char)
  | [] => [[]]
  | c :: r =>
    if c = '/' then [] :: splitSlash r
    else (splitSlash r).modifyHead (c :: ·)

theorem splitSlash_ne_nil (l : List Char) : splitSlash l ≠ [] := by
  induction l with
  | nil => simp [splitSlash]
  | cons c r ih =>
    simp only [splitSlash]
    split
    · simp
    · intro h
      exact ih (by simpa using List.modifyHead_eq_nil_iff.mp h)

theorem splitSlash_length_pos (l : List Char) : 0 < (splitSlash l).length :=
  List.length_pos.mpr (splitSlash_ne_nil l)

theorem splitSlash_cons_ne {c : Char} (hc : ¬c = '/') (r : List Char) :
    splitSlash (c :: r) = (splitSlash r).modifyHead (c :: ·) := by
  simp [splitSlash, hc]

theorem splitSlash_append (a b : List Char) :
    splitSlash (a ++ '/' :: b) = splitSlash a ++ splitSlash b := by
  induction a with
  | nil => simp [splitSlash]
  | cons c r ih =>
    by_cases hc : c = '/'
    · subst hc; simp [splitSlash, ih]
    · rw [List.cons_append, splitSlash_cons_ne hc, splitSlash_cons_ne hc, ih]
      rcases h : splitSlash r with _ | ⟨s, rest⟩
      · exact absurd h (splitSlash_ne_nil r)
      · simp [List.modifyHead]

theorem splitSlash_no_slash {l : List Char} (h : '/' ∉ l) :
    splitSlash l = [l] := by
  induction l with
  | nil => rfl
  | cons c r ih =>
    simp only [List.mem_cons, not_or] at h
    simp [splitSlash, Ne.symm h.1, ih h.2, List.modifyHead]

/-- Join segments with `'/'` (`Array.prototype.join("/")`). -/
def joinSlash : List (List Char) → List Char
  | [] => []
  | [s] => s
  | s :: rest => s ++ '/' :: joinSlash rest

theorem splitSlash_joinSlash {segs : List (List Char)}
    (h : ∀ s ∈ segs, '/' ∉ s) (hne : segs ≠ []) :
    splitSlash (joinSlash segs) = segs := by
  induction segs with
  | nil => exact absurd rfl hne
  | cons s rest ih =>
    rcases rest with _ | ⟨t, rs⟩
    · exact splitSlash_no_slash (h s (by simp))
    · have : splitSlash (s ++ '/' :: joinSlash (t :: rs)) =
          splitSlash s ++ splitSlash (joinSlash (t :: rs)) :=
        splitSlash_append _ _
      simp only [joinSlash, this, splitSlash_no_slash (h s (by simp))]
      rw [ih (fun u hu => h u (by simp [hu])) (by simp)]
      rfl

/-! ## A stable insertion sort

`Array.prototype.sort` is a stable sort; a stable insertion sort (insert
before the first element the new element is `le` to) is extensionally the
same function for any total comparator. -/

def insertLe (le : α → α → Bool) (x : α) : List α → List α
  | [] => [x]
  | y :: ys => if le x y then x :: y :: ys else y :: insertLe le x ys

def sortLe (le : α → α → Bool) : List α → List α
  | [] => []
  | x :: xs => insertLe le x (sortLe le xs)

theorem perm_insertLe (le : α → α → Bool) (x : α) (l : List α) :
    List.Perm (insertLe le x l) (x :: l) := by
  induction l with
  | nil => exact List.Perm.refl _
  | cons y ys ih =>
    simp only [insertLe]
    split
    · exact List.Perm.refl _
    · exact (ih.cons y).trans (List.Perm.swap x y ys)

theorem perm_sortLe (le : α → α → Bool) (l : List α) :
    List.Perm (sortLe le l) l := by
  induction l with
  | nil => exact List.Perm.refl _
  | cons x xs ih => exact (perm_insertLe le x (sortLe le xs)).trans (ih.cons x)

theorem mem_sortLe (le : α → α → Bool) (l : List α) (a : α) :
    a ∈ sortLe le l ↔ a ∈ l :=
  (perm_sortLe le l).mem_iff

theorem pairwise_insertLe (le : α → α → Bool)
    (total : ∀ a b, le a b = false → le b a = true)
    (trans : ∀ a b c, le a b = true → le b c = true → le a c = true)
    (x : α) {l : List α} (h : l.Pairwise (le · · = true)) :
    (insertLe le x l).Pairwise (le · · = true) := by
  induction l with
  | nil => simp [insertLe]
  | cons y ys ih =>
    rcases List.pairwise_cons.mp h with ⟨hy, hys⟩
    simp only [insertLe]
    split
    · rename_i hxy
      refine List.pairwise_cons.mpr ⟨?_, h⟩
      intro b hb
      rcases List.mem_cons.mp hb with rfl | hb
      · exact hxy
      · exact trans x y b hxy (hy b hb)
    · rename_i hxy
      refine List.pairwise_cons.mpr ⟨?_, ih hys⟩
      intro b hb
      have hb' : b ∈ x :: ys := (perm_insertLe le x ys).mem_iff.mp hb
      rcases List.mem_cons.mp hb' with rfl | h2
      · have hf : le b y = false := by simpa using hxy
        exact total b y hf
      · exact hy b h2

theorem pairwise_sortLe (le : α → α → Bool)
    (total : ∀ a b, le a b = false → le b a = true)
    (trans : ∀ a b c, le a b = true → le b c = true → le a c = true)
    (l : List α) : (sortLe le l).Pairwise (le · · = true) := by
  induction l with
  | nil => simp [sortLe]
  | cons x xs ih => exact pairwise_insertLe le total trans x ih

/-! ## Model of Node's `path` module (POSIX semantics)

`PathUtils.isPathSafe` delegates to Node's `path.isAbsolute`, `path.resolve`,
`path.normalize` and `path.relative`.  These are external, well-specified
collaborators; they are modelled here for POSIX separators.  `path.resolve`
is modelled for an absolute first argument (otherwise Node would prepend the
process working directory); the theorems assume the workspace root is an
absolute normalized path, which `goodRoot` expresses. -/

/-- Model of `path.isAbsolute` (POSIX): the string starts with `/`. -/
def isAbsolute (s : List Char) : Bool :=
  match s with
  | '/' :: _ => true
  | _ => false

/-- Node's `normalizeString` segment processing with `allowAboveRoot = false`
(the behaviour used for absolute paths): empty and `.` segments are dropped,
`..` pops the last accumulated segment (or is dropped at the root), any other
segment is appended. -/
def normFrom (stack : List (List Char)) : List (List Char) → List (List Char)
  | [] => stack
  | seg :: rest =>
    if seg = [] ∨ seg = ['.'] then normFrom stack rest
    else if seg = ['.', '.'] then normFrom stack.dropLast rest
    else normFrom (stack ++ [seg]) rest

/-- The normalized segment list of an absolute path string. -/
def normSegsAbs (s : List Char) : List (List Char) :=
  normFrom [] (splitSlash s)

/-- Render an absolute path from its segments (`"/" + segs.join("/")`). -/
def renderAbs (segs : List (List Char)) : List Char :=
  '/' :: joinSlash segs

/-- Normalization of an absolute path (`path.normalize` restricted to
absolute inputs without a trailing separator, which is the only shape the
code feeds it). -/
def absNorm (s : List Char) : List Char :=
  renderAbs (normSegsAbs s)

/-- Model of `path.resolve(root, target)` for an absolute `root` (POSIX). -/
def posixResolve (root target : List Char) : List Char :=
  if isAbsolute target then absNorm target
  else absNorm (root ++ '/' :: target)

/-- Drop the longest common segment prefix of two segment lists, returning
the two remainders. -/
def dropCommon : List (List Char) → List (List Char) →
    List (List Char) × List (List Char)
  | a :: as, b :: bs =>
    if a = b then dropCommon as bs else (a :: as, b :: bs)
  | as, bs => (as, bs)

/-- Model of `path.relative(f, t)` for absolute `f`, `t` (POSIX): resolve both, drop
the common segment prefix, then one `..` per remaining segment of `f`
followed by the remaining segments of `t`. -/
def posixRelative (f t : List Char) : List Char :=
  let p := dropCommon (normSegsAbs f) (normSegsAbs t)
  joinSlash (List.replicate p.1.length ['.', '.'] ++ p.2)

/-- Model of `PathUtils.isPathSafe(targetPath, workspaceRoot)`: rejects absolute
paths; resolves against the root, and rejects when `path.relative` starts
with `..` or is absolute; otherwise answers whether the normalized resolved
path starts with the workspace root. -/
def isPathSafe (targetPath workspaceRoot : List Char) : Bool :=
  if isAbsolute targetPath then false
  else
    let resolved := posixResolve workspaceRoot targetPath
    let normalized := absNorm resolved
    let rel := posixRelative workspaceRoot resolved
    if ['.', '.'].isPrefixOf rel || isAbsolute rel then false
    else workspaceRoot.isPrefixOf normalized

/-- A well-formed path segment: nonempty, not `.`, not `..`, and free of
separators.  `normFrom` only ever outputs such segments. -/
def wfSeg (s : List Char) : Prop :=
  s ≠ [] ∧ s ≠ ['.'] ∧ s ≠ ['.', '.'] ∧ '/' ∉ s

/-- A good workspace root: an absolute path already in normal form (no `.`,
`..` or empty segments, no trailing separator). -/
def goodRoot (root : List Char) : Prop :=
  isAbsolute root = true ∧ absNorm root = root

/-- The first remaining segment below the root starts with the two
characters `..` (this — not semantic escape — is what the `relative`-prefix
test in the code keys on). -/
def segsStartDotDot : List (List Char) → Bool
  | [] => false
  | t :: _ => ['.', '.'].isPrefixOf t

/-! ### Lemmas about the path model -/

theorem splitSlash_mem_no_slash {l : List Char} :
    ∀ s ∈ splitSlash l, '/' ∉ s := by
  induction l with
  | nil => intro s hs; simp [splitSlash] at hs; simp [hs]
  | cons c r ih =>
    intro s hs
    by_cases hc : c = '/'
    · subst hc
      have e : splitSlash ('/' :: r) = [] :: splitSlash r := by simp [splitSlash]
      rw [e] at hs
      rcases List.mem_cons.mp hs with rfl | hs
      · simp
      · exact ih s hs
    · rw [splitSlash_cons_ne hc] at hs
      revert hs
      rcases h : splitSlash r with _ | ⟨t, rest⟩
      · exact absurd h (splitSlash_ne_nil r)
      · intro hs
        simp only [List.modifyHead, List.mem_cons] at hs
        rcases hs with rfl | hs
        · intro hmem
          rcases List.mem_cons.mp hmem with h' | h'
          · exact hc h'.symm
          · exact ih t (by simp [h]) h'
        · exact ih s (by simp [h, hs])

theorem normFrom_append (st : List (List Char)) (a b : List (List Char)) :
    normFrom st (a ++ b) = normFrom (normFrom st a) b := by
  induction a generalizing st with
  | nil => rfl
  | cons seg rest ih =>
    simp only [List.cons_append, normFrom]
    split
    · exact ih st
    · split
      · exact ih st.dropLast
      · exact ih (st ++ [seg])

theorem normFrom_wf {st : List (List Char)} {segs : List (List Char)}
    (hst : ∀ s ∈ st, wfSeg s) (hsegs : ∀ s ∈ segs, '/' ∉ s) :
    ∀ s ∈ normFrom st segs, wfSeg s := by
  induction segs generalizing st with
  | nil => exact hst
  | cons seg rest ih =>
    simp only [normFrom]
    split
    · exact ih hst (fun s hs => hsegs s (by simp [hs]))
    · split
      · exact ih (fun s hs => hst s (List.dropLast_subset st hs))
          (fun s hs => hsegs s (by simp [hs]))
      · rename_i h1 h2
        refine ih ?_ (fun s hs => hsegs s (by simp [hs]))
        intro s hs
        rcases List.mem_append.mp hs with hs | hs
        · exact hst s hs
        · have : s = seg := by simpa using hs
          subst this
          push_neg at h1
          exact ⟨h1.1, h1.2, h2, hsegs s (by simp)⟩

theorem normFrom_all_wf {segs : List (List Char)}
    (h : ∀ s ∈ segs, wfSeg s) (st : List (List Char)) :
    normFrom st segs = st ++ segs := by
  induction segs generalizing st with
  | nil => simp [normFrom]
  | cons seg rest ih =>
    have hseg := h seg (by simp)
    simp only [normFrom]
    rw [if_neg (by simp [hseg.1, hseg.2.1]), if_neg hseg.2.2.1,
      ih (fun s hs => h s (by simp [hs]))]
    simp

theorem normSegsAbs_renderAbs {segs : List (List Char)}
    (h : ∀ s ∈ segs, wfSeg s) :
    normSegsAbs (renderAbs segs) = segs := by
  rcases hs : segs with _ | ⟨t, ts⟩
  · rfl
  · rw [← hs]
    show normFrom [] (splitSlash ('/' :: joinSlash segs)) = segs
    have h1 : splitSlash ('/' :: joinSlash segs) = [] :: splitSlash (joinSlash segs) := by
      simp [splitSlash]
    have h2 : splitSlash (joinSlash segs) = segs :=
      splitSlash_joinSlash (fun s hmem => (h s hmem).2.2.2) (by simp [hs])
    rw [h1, h2]
    show normFrom [] segs = segs
    simpa using normFrom_all_wf h []

theorem joinSlash_append {a : List (List Char)} (ha : a ≠ []) (b : List (List Char)) :
    joinSlash (a ++ b) = joinSlash a ++ (if b = [] then [] else '/' :: joinSlash b) := by
  induction a with
  | nil => exact absurd rfl ha
  | cons s rest ih =>
    rcases rest with _ | ⟨t, rs⟩
    · rcases b with _ | ⟨u, us⟩
      · simp [joinSlash]
      · simp [joinSlash]
    · have ihh := ih (by simp)
      have e1 : (s :: t :: rs) ++ b = s :: ((t :: rs) ++ b) := rfl
      rw [e1]
      have e2 : joinSlash (s :: ((t :: rs) ++ b)) =
          s ++ '/' :: joinSlash ((t :: rs) ++ b) := by
        rcases hj : (t :: rs) ++ b with _ | ⟨w, ws⟩
        · simp at hj
        · rfl
      rw [e2, ihh]
      have e3 : joinSlash (s :: t :: rs) = s ++ '/' :: joinSlash (t :: rs) := rfl
      rw [e3]
      simp [List.append_assoc]

theorem isPrefixOf_self_append (l t : List Char) :
    l.isPrefixOf (l ++ t) = true := by
  induction l with
  | nil => simp [List.isPrefixOf]
  | cons c r ih => simp [List.isPrefixOf, ih]

theorem isPrefixOf_self (l : List Char) : l.isPrefixOf l = true := by
  have h := isPrefixOf_self_append l []
  rwa [List.append_nil] at h

theorem dropCommon_append (r tail : List (List Char)) :
    dropCommon r (r ++ tail) = ([], tail) := by
  induction r with
  | nil =>
    rcases tail with _ | ⟨t, ts⟩
    · rfl
    · rfl
  | cons s rs ih => simp [dropCommon, ih]

theorem dropCommon_fst_nil {a b : List (List Char)}
    (h : (dropCommon a b).1 = []) : b = a ++ (dropCommon a b).2 := by
  induction a generalizing b with
  | nil =>
    rcases b with _ | ⟨t, ts⟩
    · rfl
    · rfl
  | cons s rs ih =>
    rcases b with _ | ⟨t, ts⟩
    · simp [dropCommon] at h
    · by_cases hst : s = t
      · subst hst
        have e : dropCommon (s :: rs) (s :: ts) = dropCommon rs ts := by
          simp [dropCommon]
        rw [e] at h ⊢
        rw [List.cons_append, ← ih h]
      · simp [dropCommon, hst] at h

theorem dotdot_prefix_append (t rest : List Char) :
    ['.', '.'].isPrefixOf (t ++ '/' :: rest) = ['.', '.'].isPrefixOf t := by
  rcases t with _ | ⟨c1, t1⟩
  · simp [List.isPrefixOf]
  rcases t1 with _ | ⟨c2, t2⟩
  · simp [List.isPrefixOf]
  · simp [List.isPrefixOf]

theorem dotdot_prefix_join_head (t : List Char) (ts : List (List Char)) :
    ['.', '.'].isPrefixOf (joinSlash (t :: ts)) = ['.', '.'].isPrefixOf t := by
  rcases ts with _ | ⟨u, us⟩
  · rfl
  · show ['.', '.'].isPrefixOf (t ++ '/' :: joinSlash (u :: us)) = _
    exact dotdot_prefix_append _ _

theorem dotdot_prefix_join (xs : List (List Char)) :
    ['.', '.'].isPrefixOf (joinSlash (['.', '.'] :: xs)) = true := by
  rw [dotdot_prefix_join_head]
  decide

theorem isAbsolute_join_head {t : List Char} (hne : t ≠ []) (hsl : '/' ∉ t)
    (ts : List (List Char)) : isAbsolute (joinSlash (t :: ts)) = false := by
  rcases t with _ | ⟨c, u⟩
  · exact absurd rfl hne
  have hc : ¬c = '/' := fun h => hsl (by simp [h])
  rcases ts with _ | ⟨v, vs⟩
  · simp [joinSlash, isAbsolute, hc]
  · show isAbsolute ((c :: u) ++ '/' :: joinSlash (v :: vs)) = false
    simp [isAbsolute, hc]

theorem renderAbs_isPrefixOf (R tail : List (List Char)) :
    (renderAbs R).isPrefixOf (renderAbs (R ++ tail)) = true := by
  rcases R with _ | ⟨r0, rs⟩
  · show List.isPrefixOf ['/'] ('/' :: joinSlash tail) = true
    simp [List.isPrefixOf]
  · show List.isPrefixOf ('/' :: joinSlash (r0 :: rs))
      ('/' :: joinSlash ((r0 :: rs) ++ tail)) = true
    rw [joinSlash_append (by simp) tail]
    rcases tail with _ | ⟨u, us⟩
    · simp [isPrefixOf_self]
    · rw [if_neg (by simp)]
      show List.isPrefixOf ('/' :: joinSlash (r0 :: rs))
        (('/' :: joinSlash (r0 :: rs)) ++ '/' :: joinSlash (u :: us)) = true
      exact isPrefixOf_self_append _ _

/-- C3 (amended) — `isPathSafe` decides by resolution, with one lexical
exception.  For a normalized absolute workspace root: an absolute
`relativePath` is always rejected; a relative path whose resolution escapes
the root (its normalized segments do not extend the root's segments) is
always rejected; and a relative path that resolves inside the root — even
one containing `..` segments, which the resolution cancels — is accepted
*unless* the first resolved segment beneath the root itself begins with the
two characters `..` (e.g. a name like `..x`), in which case the code's
`relative(root, resolved).startsWith("..")` test rejects it although it
resolved inside the root.  The original claim overlooks that last lexical
exception. -/
theorem isPathSafe_resolution (root target : List Char) (hroot : goodRoot root) :
    (isAbsolute target = true → isPathSafe target root = false) ∧
    (isAbsolute target = false →
      ((¬ ∃ tail, normSegsAbs (posixResolve root target) =
          normSegsAbs root ++ tail) → isPathSafe target root = false) ∧
      (∀ tail, normSegsAbs (posixResolve root target) = normSegsAbs root ++ tail →
        isPathSafe target root = !(segsStartDotDot tail))) := by
  have Rwf : ∀ s ∈ normSegsAbs root, wfSeg s :=
    normFrom_wf (fun s hs => absurd hs (List.not_mem_nil s)) splitSlash_mem_no_slash
  have hrootR : renderAbs (normSegsAbs root) = root := hroot.2
  constructor
  · intro h
    simp [isPathSafe, h]
  · intro hta
    have Swf : ∀ s ∈ normFrom (normSegsAbs root) (splitSlash target), wfSeg s :=
      normFrom_wf Rwf splitSlash_mem_no_slash
    have hres0 : posixResolve root target = absNorm (root ++ '/' :: target) := by
      unfold posixResolve
      rw [if_neg (by simp [hta])]
    have hres : posixResolve root target =
        renderAbs (normFrom (normSegsAbs root) (splitSlash target)) := by
      rw [hres0]
      show renderAbs (normFrom [] (splitSlash (root ++ '/' :: target))) = _
      rw [splitSlash_append, normFrom_append]
      rfl
    have hS : normSegsAbs (posixResolve root target) =
        normFrom (normSegsAbs root) (splitSlash target) := by
      rw [hres]
      exact normSegsAbs_renderAbs Swf
    have hnorm : absNorm (posixResolve root target) =
        renderAbs (normFrom (normSegsAbs root) (splitSlash target)) := by
      show renderAbs (normSegsAbs (posixResolve root target)) = _
      rw [hS]
    have hrel : posixRelative root (posixResolve root target) =
        joinSlash (List.replicate
            (dropCommon (normSegsAbs root)
              (normFrom (normSegsAbs root) (splitSlash target))).1.length
            ['.', '.'] ++
          (dropCommon (normSegsAbs root)
            (normFrom (normSegsAbs root) (splitSlash target))).2) := by
      show joinSlash _ = _
      rw [hS]
    have hmain : isPathSafe target root =
        (if (['.', '.'].isPrefixOf (posixRelative root (posixResolve root target)) ||
              isAbsolute (posixRelative root (posixResolve root target))) = true
          then false
          else root.isPrefixOf (absNorm (posixResolve root target))) := by
      unfold isPathSafe
      rw [if_neg (by simp [hta])]
    constructor
    · intro hnot
      obtain ⟨f, fs, hf⟩ : ∃ f fs,
          (dropCommon (normSegsAbs root)
            (normFrom (normSegsAbs root) (splitSlash target))).1 = f :: fs := by
        rcases hfst : (dropCommon (normSegsAbs root)
            (normFrom (normSegsAbs root) (splitSlash target))).1 with _ | ⟨f, fs⟩
        · refine absurd ⟨(dropCommon (normSegsAbs root)
            (normFrom (normSegsAbs root) (splitSlash target))).2, ?_⟩ hnot
          rw [hS]
          exact dropCommon_fst_nil hfst
        · exact ⟨f, fs, rfl⟩
      rw [hmain, hrel, hf]
      have hrepl : List.replicate (f :: fs).length ['.', '.'] ++
          (dropCommon (normSegsAbs root)
            (normFrom (normSegsAbs root) (splitSlash target))).2 =
          ['.', '.'] :: (List.replicate fs.length ['.', '.'] ++
            (dropCommon (normSegsAbs root)
              (normFrom (normSegsAbs root) (splitSlash target))).2) := by
        simp [List.replicate_succ]
      rw [hrepl, dotdot_prefix_join]
      simp
    · intro tail htail
      have htail' : normFrom (normSegsAbs root) (splitSlash target) =
          normSegsAbs root ++ tail := by
        rw [← hS]; exact htail
      rw [hmain, hrel, htail', dropCommon_append, hnorm, htail']
      rcases tail with _ | ⟨t, ts⟩
      · simp only [List.length_nil, List.replicate_zero, List.nil_append,
          List.append_nil]
        rw [hrootR]
        have hself : root.isPrefixOf root = true := by
          have h := isPrefixOf_self_append root []
          rwa [List.append_nil] at h
        rw [hself]
        simp [joinSlash, List.isPrefixOf, isAbsolute, segsStartDotDot]
      · have hwf : wfSeg t := by
          refine Swf t ?_
          rw [htail']
          exact List.mem_append_right _ (List.mem_cons_self t ts)
        simp only [List.length_nil, List.replicate_zero, List.nil_append]
        simp only [dotdot_prefix_join_head, isAbsolute_join_head hwf.1 hwf.2.2.2,
          Bool.or_false]
        have hpre : root.isPrefixOf
            (renderAbs (normSegsAbs root ++ t :: ts)) = true := by
          have h := renderAbs_isPrefixOf (normSegsAbs root) (t :: ts)
          rwa [hrootR] at h
        rw [hpre]
        cases hpt : ['.', '.'].isPrefixOf t
        · simp [segsStartDotDot, hpt]
        · simp [segsStartDotDot, hpt]

/-- C3 (counterexample to the claim as stated) — the relative path
`..x/y` against the root `/ws` resolves to `/ws/..x/y`, strictly inside the
root, yet `isPathSafe` returns `false`: `path.relative` yields `..x/y`,
whose first two characters are `..`, so the `startsWith("..")` test fires.
The claim "it returns true for a relative path that resolves inside root"
is therefore false of the code. -/
theorem isPathSafe_claim_counterexample :
    isAbsolute "..x/y".data = false ∧
    goodRoot "/ws".data ∧
    posixResolve "/ws".data "..x/y".data = "/ws/..x/y".data ∧
    normSegsAbs (posixResolve "/ws".data "..x/y".data) =
      normSegsAbs "/ws".data ++ [['.', '.', 'x'], ['y']] ∧
    isPathSafe "..x/y".data "/ws".data = false := by
  refine ⟨by decide, ⟨by decide, by decide⟩, by decide, by decide, by decide⟩

/-- Witness for `isPathSafe_resolution`: the root `/ws` is a good root, the
path `a/../b` contains a `..` segment, resolves inside the root to `/ws/b`,
and is accepted. -/
theorem isPathSafe_resolution_witness :
    goodRoot "/ws".data ∧
    isPathSafe "a/../b".data "/ws".data = !(segsStartDotDot [['b']]) :=
  ⟨⟨by decide, by decide⟩,
    ((isPathSafe_resolution "/ws".data "a/../b".data ⟨by decide, by decide⟩).2
      (by decide)).2 [['b']] (by decide)⟩

/-! ## The tree data model (`src/types.ts`, marker generation)

`TreeNode { name, type, children?, operation?, renameTo? }`.  The optional
`children` array is modelled by the mutual `Children` type (`undef` for a
JavaScript `undefined` field, `arr` for a present — possibly empty — array),
and the array itself by `Forest`; this mutual encoding keeps all recursion
structural and all definitions kernel-evaluable. -/

inductive Operation where
  | create
  | delete
  | rename
  deriving DecidableEq

inductive NodeType where
  | file
  | folder
  deriving DecidableEq

mutual
inductive TreeNode where
  | mk (name : List Char) (type : NodeType) (children : Children)
      (operation : Option Operation) (renameTo : Option (List Char))

inductive Children where
  | undef
  | arr (f : Forest)

inductive Forest where
  | nil
  | cons (t : TreeNode) (f : Forest)
end

def TreeNode.name : TreeNode → List Char
  | .mk n _ _ _ _ => n

def TreeNode.type : TreeNode → NodeType
  | .mk _ ty _ _ _ => ty

def TreeNode.children : TreeNode → Children
  | .mk _ _ c _ _ => c

def TreeNode.operation : TreeNode → Option Operation
  | .mk _ _ _ o _ => o

def TreeNode.renameTo : TreeNode → Option (List Char)
  | .mk _ _ _ _ r => r

/-- Convenience constructor for forests from lists (used only to write
concrete trees). -/
def Forest.ofList : List TreeNode → Forest
  | [] => .nil
  | t :: ts => .cons t (Forest.ofList ts)

/-! ## JavaScript default sort order

`Array.prototype.sort()` with no comparator sorts strings by their UTF-16
code units; for the characters appearing in paths this is lexicographic
comparison of code points. -/

def lexLe : List Char → List Char → Bool
  | [], _ => true
  | _ :: _, [] => false
  | a :: as, b :: bs =>
    if a.toNat < b.toNat then true
    else if b.toNat < a.toNat then false
    else lexLe as bs

theorem lexLe_cons (x y : Char) (xs ys : List Char) :
    lexLe (x :: xs) (y :: ys) =
      (if x.toNat < y.toNat then true
       else if y.toNat < x.toNat then false
       else lexLe xs ys) := rfl

theorem lexLe_total : ∀ a b, lexLe a b = false → lexLe b a = true := by
  intro a
  induction a with
  | nil => intro b h; simp [lexLe] at h
  | cons x xs ih =>
    intro b h
    rcases b with _ | ⟨y, ys⟩
    · rfl
    rw [lexLe_cons] at h ⊢
    split_ifs at h ⊢ with h1 h2 h3 <;>
      first
        | rfl
        | omega
        | simp at h
        | exact ih ys h

theorem lexLe_trans : ∀ a b c,
    lexLe a b = true → lexLe b c = true → lexLe a c = true := by
  intro a
  induction a with
  | nil => intro b c _ _; rfl
  | cons x xs ih =>
    intro b c hab hbc
    rcases b with _ | ⟨y, ys⟩
    · simp [lexLe] at hab
    rcases c with _ | ⟨z, zs⟩
    · simp [lexLe] at hbc
    rw [lexLe_cons] at hab hbc ⊢
    split_ifs at hab hbc ⊢ with h1 h2 h3 h4 h5 h6 <;>
      first
        | rfl
        | omega
        | simp at hab
        | simp at hbc
        | exact ih ys zs hab hbc

theorem char_eq_of_toNat_eq {x y : Char} (h : x.toNat = y.toNat) : x = y :=
  Char.ext (UInt32.ext h)

theorem lexLe_antisymm : ∀ a b,
    lexLe a b = true → lexLe b a = true → a = b := by
  intro a
  induction a with
  | nil =>
    intro b _ hba
    rcases b with _ | ⟨y, ys⟩
    · rfl
    · simp [lexLe] at hba
  | cons x xs ih =>
    intro b hab hba
    rcases b with _ | ⟨y, ys⟩
    · simp [lexLe] at hab
    rw [lexLe_cons] at hab hba
    split_ifs at hab hba with h1 h2 h3 <;>
      first
        | omega
        | simp at hab
        | simp at hba
        | (rw [char_eq_of_toNat_eq (by omega : x.toNat = y.toNat),
            ih ys hab hba])


/-! ## Structure validator (`src/fs/structureValidator.ts`) -/

/-- Model of the child-path expression `prefix ? prefix + "/" + child.name :
child.name` — the empty string is falsy in JavaScript. -/
def childPathOf (pre name : List Char) : List Char :=
  if pre = [] then name else pre ++ '/' :: name

mutual
/-- Model of `StructureValidator.getExpectedPaths(tree, prefix)`: walk the children,
skipping every child marked `create` (the `continue` skips the child's whole
subtree), collecting each remaining child's path and recursing into children
arrays; the collected list is sorted (`paths.sort()`) before returning. -/
def getExpectedPaths : TreeNode → List Char → List (List Char)
  | .mk _ _ c _ _, pre =>
    sortLe lexLe
      (match c with
        | .undef => []
        | .arr f => expectedForest f pre)

/-- The loop body of `getExpectedPaths` over a children array. -/
def expectedForest : Forest → List Char → List (List Char)
  | .nil, _ => []
  | .cons child rest, pre =>
    (if child.operation = some .create then []
     else
       childPathOf pre child.name ::
         (match child.children with
           | .undef => []
           | .arr _ => getExpectedPaths child (childPathOf pre child.name))) ++
    expectedForest rest pre
end

structure StructuralMismatch where
  expected : List (List Char)
  actual : List (List Char)
  added : List (List Char)
  removed : List (List Char)
  modified : List (List Char)

structure ValidationOutcome where
  valid : Bool
  mismatch : Option StructuralMismatch

/-- Model of `StructureValidator.validate(tree, workspaceRoot, ignorePatterns)`, with
the filesystem scan factored out: `actualPaths` is the sorted path list the
external `scanFilesystem` collaborator produces.  `added` keeps the actual
paths not contained in the expectation, `removed` keeps the expected paths
not contained in the actual list, and the result is valid exactly when both
are empty. -/
def validate (tree : TreeNode) (actualPaths : List (List Char)) :
    ValidationOutcome :=
  let expectedPaths := getExpectedPaths tree []
  let added := actualPaths.filter (fun p => !(expectedPaths.contains p))
  let removed := expectedPaths.filter (fun p => !(actualPaths.contains p))
  let valid := added.length == 0 && removed.length == 0
  if valid then ⟨true, none⟩
  else ⟨false, some ⟨expectedPaths, actualPaths, added, removed, []⟩⟩

/-! ### C1: the mismatch report -/

instance : IsAntisymm (List Char) (fun a b => lexLe a b = true) :=
  ⟨fun a b => lexLe_antisymm a b⟩

theorem mem_filter_not_contains {A E : List (List Char)} {p : List Char} :
    p ∈ A.filter (fun q => !(E.contains q)) ↔ p ∈ A ∧ p ∉ E := by
  simp [List.mem_filter]

theorem subsets_iff_sort_eq {E A : List (List Char)}
    (hE : E.Nodup) (hA : A.Nodup) :
    ((∀ p ∈ A, p ∈ E) ∧ (∀ p ∈ E, p ∈ A)) ↔
      sortLe lexLe E = sortLe lexLe A := by
  constructor
  · intro h
    have hperm : List.Perm E A :=
      (List.perm_ext_iff_of_nodup hE hA).mpr (fun p => ⟨h.2 p, h.1 p⟩)
    have hperm2 : List.Perm (sortLe lexLe E) (sortLe lexLe A) :=
      ((perm_sortLe lexLe E).trans hperm).trans (perm_sortLe lexLe A).symm
    exact List.eq_of_perm_of_sorted hperm2
      (pairwise_sortLe lexLe lexLe_total lexLe_trans E)
      (pairwise_sortLe lexLe lexLe_total lexLe_trans A)
  · intro h
    constructor
    · intro p hp
      have : p ∈ sortLe lexLe A := (mem_sortLe lexLe A p).mpr hp
      rw [← h] at this
      exact (mem_sortLe lexLe E p).mp this
    · intro p hp
      have : p ∈ sortLe lexLe E := (mem_sortLe lexLe E p).mpr hp
      rw [h] at this
      exact (mem_sortLe lexLe A p).mp this

/-- C1 — for every baseline tree and every duplicate-free list of actual
filesystem paths (the expectation is also duplicate-free, which the
duplicate-sibling-name invariant of the data model guarantees), `validate`
reports a mismatch exactly when the sorted expectation (`getExpectedPaths`,
the validator's non-create path list) differs from the sorted actual list;
and in every reported mismatch, `added` holds exactly the actual paths
absent from the expectation, `removed` exactly the expected paths absent
from the actual list, and the two are disjoint — together they partition
the symmetric difference. -/
theorem validate_mismatch_spec (t : TreeNode) (A : List (List Char))
    (hA : A.Nodup) (hE : (getExpectedPaths t []).Nodup) :
    ((validate t A).valid = false ↔
      sortLe lexLe (getExpectedPaths t []) ≠ sortLe lexLe A) ∧
    ((validate t A).valid = false ↔ (validate t A).mismatch ≠ none) ∧
    (∀ m, (validate t A).mismatch = some m →
      (∀ p, (p ∈ m.added ↔ p ∈ A ∧ p ∉ getExpectedPaths t [])) ∧
      (∀ p, (p ∈ m.removed ↔ p ∈ getExpectedPaths t [] ∧ p ∉ A)) ∧
      (∀ p, ¬(p ∈ m.added ∧ p ∈ m.removed))) := by
  by_cases hcond : ((A.filter (fun p => !((getExpectedPaths t []).contains p))).length == 0 &&
      ((getExpectedPaths t []).filter (fun p => !(A.contains p))).length == 0) = true
  · have hv : validate t A = ⟨true, none⟩ := by
      unfold validate
      rw [if_pos hcond]
    have hsub : (∀ p ∈ A, p ∈ getExpectedPaths t []) ∧
        (∀ p ∈ getExpectedPaths t [], p ∈ A) := by
      rw [Bool.and_eq_true] at hcond
      have h1 := hcond.1
      have h2 := hcond.2
      rw [Nat.beq_eq_true_eq, List.length_eq_zero, List.filter_eq_nil_iff] at h1 h2
      constructor
      · intro p hp
        have := h1 p hp
        simpa using this
      · intro p hp
        have := h2 p hp
        simpa using this
    have hsort := (subsets_iff_sort_eq hE hA).mp hsub
    refine ⟨?_, ?_, ?_⟩
    · rw [hv]
      simp [hsort]
    · rw [hv]
      simp
    · intro m hm
      rw [hv] at hm
      simp at hm
  · have hv : validate t A =
        ⟨false, some ⟨getExpectedPaths t [], A,
          A.filter (fun p => !((getExpectedPaths t []).contains p)),
          (getExpectedPaths t []).filter (fun p => !(A.contains p)), []⟩⟩ := by
      unfold validate
      rw [if_neg hcond]
    have hnsort : sortLe lexLe (getExpectedPaths t []) ≠ sortLe lexLe A := by
      intro hsort
      apply hcond
      have hsub := (subsets_iff_sort_eq hE hA).mpr hsort
      rw [Bool.and_eq_true]
      constructor
      · rw [Nat.beq_eq_true_eq, List.length_eq_zero, List.filter_eq_nil_iff]
        intro p hp
        simp [hsub.1 p hp]
      · rw [Nat.beq_eq_true_eq, List.length_eq_zero, List.filter_eq_nil_iff]
        intro p hp
        simp [hsub.2 p hp]
    refine ⟨?_, ?_, ?_⟩
    · rw [hv]
      simp [hnsort]
    · rw [hv]
      simp
    · intro m hm
      rw [hv] at hm
      simp only [Option.some.injEq] at hm
      subst hm
      refine ⟨?_, ?_, ?_⟩
      · intro p
        exact mem_filter_not_contains
      · intro p
        constructor
        · intro hp
          have := List.mem_filter.mp hp
          refine ⟨this.1, ?_⟩
          simpa using this.2
        · intro hp
          refine List.mem_filter.mpr ⟨hp.1, ?_⟩
          simpa using hp.2
      · intro p hp
        have h1 := mem_filter_not_contains.mp hp.1
        have h2 := List.mem_filter.mp hp.2
        have := h1.2
        exact this h2.1

/-- Witness for `validate_mismatch_spec`: the scenario-C shape — the tree
declares only `src/a.txt` (unmarked), the filesystem also has `src/b.txt`;
the validator reports a mismatch whose `added` holds exactly `src/b.txt`. -/
theorem validate_mismatch_spec_witness :
    ("src/b.txt".data ∈ ["src".data, "src/a.txt".data, "src/b.txt".data] ∧
      "src/b.txt".data ∉ getExpectedPaths
        (.mk "root".data .folder
          (.arr (.cons
            (.mk "src".data .folder
              (.arr (.cons (.mk "a.txt".data .file .undef none none) .nil))
              none none) .nil)) none none) []) ∧
    (validate
      (.mk "root".data .folder
        (.arr (.cons
          (.mk "src".data .folder
            (.arr (.cons (.mk "a.txt".data .file .undef none none) .nil))
            none none) .nil)) none none)
      ["src".data, "src/a.txt".data, "src/b.txt".data]).valid = false := by
  constructor
  · constructor
    · decide
    · decide
  · have h := (validate_mismatch_spec
      (.mk "root".data .folder
        (.arr (.cons
          (.mk "src".data .folder
            (.arr (.cons (.mk "a.txt".data .file .undef none none) .nil))
            none none) .nil)) none none)
      ["src".data, "src/a.txt".data, "src/b.txt".data]
      (by decide) (by decide)).1
    exact h.mpr (by decide)

/-! ### C4: which nodes the expectation contains -/

mutual
/-- Spec-side walk: every node below the root with its resolved path and its
operation marker (create-marked subtrees included). -/
def nodeEntries : TreeNode → List Char → List (List Char × Option Operation)
  | .mk _ _ c _ _, pre =>
    match c with
    | .undef => []
    | .arr f => nodeEntriesForest f pre

/-- The forest part of `nodeEntries`. -/
def nodeEntriesForest : Forest → List Char → List (List Char × Option Operation)
  | .nil, _ => []
  | .cons child rest, pre =>
    (childPathOf pre child.name, child.operation) ::
      (nodeEntries child (childPathOf pre child.name) ++
        nodeEntriesForest rest pre)
end

mutual
/-- Spec-side walk: every node below the root with its resolved path and a
flag telling whether the node itself or one of its ancestors below the root
carries a `create` marker. -/
def markedEntries : TreeNode → List Char → Bool → List (List Char × Bool)
  | .mk _ _ c _ _, pre, blocked =>
    match c with
    | .undef => []
    | .arr f => markedForest f pre blocked

/-- The forest part of `markedEntries`. -/
def markedForest : Forest → List Char → Bool → List (List Char × Bool)
  | .nil, _, _ => []
  | .cons child rest, pre, blocked =>
    (childPathOf pre child.name,
        if child.operation = some .create then true else blocked) ::
      (markedEntries child (childPathOf pre child.name)
          (if child.operation = some .create then true else blocked) ++
        markedForest rest pre blocked)
end

mutual
theorem markedEntries_blocked : ∀ (t : TreeNode) (pre : List Char)
    (pr : List Char × Bool), pr ∈ markedEntries t pre true → pr.2 = true
  | .mk n ty c o r, pre, pr, h => by
    cases c with
    | undef => simp [markedEntries] at h
    | arr f =>
      exact markedForest_blocked f pre pr (by simpa [markedEntries] using h)

theorem markedForest_blocked : ∀ (f : Forest) (pre : List Char)
    (pr : List Char × Bool), pr ∈ markedForest f pre true → pr.2 = true
  | .nil, _, pr, h => by simp [markedForest] at h
  | .cons child rest, pre, pr, h => by
    simp only [markedForest] at h
    have hflag : (if child.operation = some .create then true else true) = true := by
      split <;> rfl
    rw [hflag] at h
    rcases List.mem_cons.mp h with rfl | h
    · rfl
    · rcases List.mem_append.mp h with h | h
      · exact markedEntries_blocked child _ pr h
      · exact markedForest_blocked rest pre pr h
end

mutual
theorem expected_iff_marked_node : ∀ (t : TreeNode) (pre p : List Char),
    p ∈ getExpectedPaths t pre ↔ (p, false) ∈ markedEntries t pre false
  | .mk n ty c o r, pre, p => by
    cases c with
    | undef => simp [getExpectedPaths, markedEntries, sortLe]
    | arr f =>
      show p ∈ sortLe lexLe (expectedForest f pre) ↔
        (p, false) ∈ markedForest f pre false
      rw [mem_sortLe]
      exact expected_iff_marked_forest f pre p

theorem expected_iff_marked_forest : ∀ (f : Forest) (pre p : List Char),
    p ∈ expectedForest f pre ↔ (p, false) ∈ markedForest f pre false
  | .nil, pre, p => by simp [expectedForest, markedForest]
  | .cons child rest, pre, p => by
    simp only [expectedForest, markedForest]
    by_cases hop : child.operation = some .create
    · rw [if_pos hop, if_pos hop]
      constructor
      · intro h
        have h2 := (expected_iff_marked_forest rest pre p).mp (by simpa using h)
        exact List.mem_cons.mpr (Or.inr (List.mem_append.mpr (Or.inr h2)))
      · intro h
        rcases List.mem_cons.mp h with heq | h
        · exact absurd (congrArg Prod.snd heq) (by simp)
        · rcases List.mem_append.mp h with h | h
          · have := markedEntries_blocked child _ (p, false) h
            simp at this
          · have h2 := (expected_iff_marked_forest rest pre p).mpr h
            simpa using h2
    · rw [if_neg hop, if_neg hop]
      have hinner : p ∈ (match child.children with
            | .undef => ([] : List (List Char))
            | .arr _ => getExpectedPaths child (childPathOf pre child.name)) ↔
          (p, false) ∈ markedEntries child (childPathOf pre child.name) false := by
        cases hc : child.children with
        | undef =>
          rcases child with ⟨n2, ty2, c2, o2, r2⟩
          simp only [TreeNode.children] at hc
          subst hc
          simp [markedEntries]
        | arr f2 =>
          rw [expected_iff_marked_node child (childPathOf pre child.name) p]
      constructor
      · intro h
        rcases List.mem_append.mp h with h | h
        · rcases List.mem_cons.mp h with rfl | h
          · exact List.mem_cons.mpr (Or.inl rfl)
          · exact List.mem_cons.mpr (Or.inr (List.mem_append.mpr
              (Or.inl (hinner.mp h))))
        · exact List.mem_cons.mpr (Or.inr (List.mem_append.mpr
            (Or.inr ((expected_iff_marked_forest rest pre p).mp h))))
      · intro h
        rcases List.mem_cons.mp h with heq | h
        · have : p = childPathOf pre child.name := congrArg Prod.fst heq
          subst this
          exact List.mem_append.mpr (Or.inl (List.mem_cons.mpr (Or.inl rfl)))
        · rcases List.mem_append.mp h with h | h
          · exact List.mem_append.mpr (Or.inl (List.mem_cons.mpr
              (Or.inr (hinner.mpr h))))
          · exact List.mem_append.mpr (Or.inr
              ((expected_iff_marked_forest rest pre p).mpr h))
end

/-- C4 (counterexample to the claim as stated) — a tree whose root has a
create-marked folder `a` containing an unmarked file `b`: the node at path
`a/b` carries no `create` marker, yet its path is **not** in the
expectation, because `getExpectedPaths` skips the whole subtree of a
create-marked node (`continue` before the recursive call), not just the
marked node itself. -/
theorem getExpectedPaths_claim_counterexample :
    ("a/b".data, (none : Option Operation)) ∈ nodeEntries
      (.mk "root".data .folder
        (.arr (.cons
          (.mk "a".data .folder
            (.arr (.cons (.mk "b".data .file .undef none none) .nil))
            (some .create) none) .nil)) none none) [] ∧
    "a/b".data ∉ getExpectedPaths
      (.mk "root".data .folder
        (.arr (.cons
          (.mk "a".data .folder
            (.arr (.cons (.mk "b".data .file .undef none none) .nil))
            (some .create) none) .nil)) none none) [] := by
  constructor
  · decide
  · decide

/-- C4 (amended) — the expectation contains the path of a node exactly when
neither the node itself nor any of its ancestors below the root carries a
`create` marker: create-marked nodes are excluded together with their whole
subtrees, and every other node is included. -/
theorem getExpectedPaths_marked_iff (t : TreeNode) (p : List Char) :
    p ∈ getExpectedPaths t [] ↔ (p, false) ∈ markedEntries t [] false :=
  expected_iff_marked_node t [] p

/-! ## Operation extractor (`src/fs/operationExtractor.ts`) and the
apply-command gate -/

/-- Derived operation record (`OperationNode { node, path, operation,
newPath? }`; `path` is a segment array). -/
structure OperationNode where
  node : TreeNode
  path : List (List Char)
  operation : Operation
  newPath : Option (List (List Char))

/-- The string value of the `Operation` enum. -/
def operationName : Operation → List Char
  | .create => "create".data
  | .delete => "delete".data
  | .rename => "rename".data

mutual
/-- Model of `OperationExtractor.extractRecursive`: emit a record wherever
`operation` is set (for a rename with a truthy — non-empty — `renameTo`,
`newPath` replaces the last segment of the path by the rename target), then
recurse into the children array. -/
def extractRecursive : TreeNode → List (List Char) → List OperationNode
  | .mk n ty c o r, currentPath =>
    (match o with
      | none => []
      | some op =>
        [⟨.mk n ty c o r, currentPath, op,
          match op, r with
          | .rename, some rt =>
            if rt = [] then none else some (currentPath.dropLast ++ [rt])
          | _, _ => none⟩]) ++
    (match c with
      | .undef => []
      | .arr f => extractForest f currentPath)

/-- The children loop of `extractRecursive`. -/
def extractForest : Forest → List (List Char) → List OperationNode
  | .nil, _ => []
  | .cons child rest, currentPath =>
    extractRecursive child (currentPath ++ [child.name]) ++
      extractForest rest currentPath
end

/-- Model of `OperationExtractor.extract`. -/
def OperationExtractor.extract (tree : TreeNode) : List OperationNode :=
  extractRecursive tree []

/-- Model of `OperationExtractor.validate`: an error for every operation
with an empty path (`Cannot <op> root node`, the `continue` skips the
rename check), and an error for every rename whose node has a falsy
(`undefined` or empty) `renameTo`. -/
def OperationExtractor.validate : List OperationNode → List (List Char)
  | [] => []
  | op :: rest =>
    if op.path.length == 0 then
      ("Cannot ".data ++ operationName op.operation ++ " root node".data) ::
        OperationExtractor.validate rest
    else if op.operation = .rename ∧
        (op.node.renameTo = none ∨ op.node.renameTo = some []) then
      ("Rename operation missing target name: ".data ++
          joinSlash op.path) ::
        OperationExtractor.validate rest
    else OperationExtractor.validate rest

/-- Model of the apply/preview command pipeline around extraction
(`applyChanges.ts` / `previewChanges.ts`, marker generation): extract, then
validate; any validation error aborts with the error list and zero
operations are handed to the scheduler. -/
def runOperationPipeline (tree : TreeNode) :
    Except (List (List Char)) (List OperationNode) :=
  let operations := OperationExtractor.extract tree
  let validationErrors := OperationExtractor.validate operations
  if validationErrors = [] then .ok operations
  else .error validationErrors

/-- C8 — root immutability.  Every operation with an empty path is rejected
by the operation validator with an error; consequently, for every tree
whose root carries an operation marker, extraction followed by validation
yields a non-empty error list and the command pipeline aborts with those
errors, scheduling zero operations — no record for the root (nor any other)
ever reaches the scheduler. -/
theorem root_operation_rejected :
    (∀ (ops : List OperationNode) (op : OperationNode), op ∈ ops →
      op.path = [] → OperationExtractor.validate ops ≠ []) ∧
    (∀ t : TreeNode, t.operation ≠ none →
      OperationExtractor.validate (OperationExtractor.extract t) ≠ [] ∧
      runOperationPipeline t =
        .error (OperationExtractor.validate (OperationExtractor.extract t))) := by
  have hmem : ∀ (ops : List OperationNode) (op : OperationNode), op ∈ ops →
      op.path = [] → OperationExtractor.validate ops ≠ [] := by
    intro ops
    induction ops with
    | nil => intro op h; simp at h
    | cons x rest ih =>
      intro op hmem hpath
      rcases List.mem_cons.mp hmem with rfl | hmem
      · rw [OperationExtractor.validate, if_pos (by simp [hpath])]
        simp
      · have hrest := ih op hmem hpath
        rw [OperationExtractor.validate]
        split
        · simp
        · split
          · simp
          · exact hrest
  refine ⟨hmem, ?_⟩
  rintro ⟨n, ty, c, o, r⟩ hop
  rcases o with _ | op
  · simp [TreeNode.operation] at hop
  clear hop
  have hval : OperationExtractor.validate (OperationExtractor.extract
      (.mk n ty c (some op) r)) ≠ [] := by
    rw [OperationExtractor.extract, extractRecursive.eq_def]
    dsimp only
    rw [List.singleton_append, OperationExtractor.validate]
    rw [if_pos (by rfl)]
    simp
  refine ⟨hval, ?_⟩
  rw [runOperationPipeline]
  simp only [if_neg hval]

/-- Witness for `root_operation_rejected`: a root marked `delete` is
rejected with the `Cannot delete root node` error and the pipeline
schedules nothing. -/
theorem root_operation_rejected_witness :
    OperationExtractor.validate (OperationExtractor.extract
      (.mk "root".data .folder .undef (some .delete) none)) ≠ [] ∧
    runOperationPipeline (.mk "root".data .folder .undef (some .delete) none) =
      .error (OperationExtractor.validate (OperationExtractor.extract
        (.mk "root".data .folder .undef (some .delete) none))) :=
  root_operation_rejected.2
    (.mk "root".data .folder .undef (some .delete) none) (by decide)

/-! ## Apply scheduler: `sortOperations`
(`OperationExecutor.sortOperations`, identical in
`ApplyEngine.sortOperations`) -/

inductive FileOpType where
  | create
  | delete
  | rename
  deriving DecidableEq

/-- `FileOperation { type, path, newPath?, nodeType }`; `path` is the full
path string. -/
structure FileOperation where
  type : FileOpType
  path : List Char
  newPath : Option (List Char)
  nodeType : NodeType

/-- Depth as computed by the code: `op.path.split(path.sep).length` (POSIX
separator). -/
def pathDepth (op : FileOperation) : Nat :=
  (splitSlash op.path).length

/-- The ascending depth comparator `(a, b) => depthA - depthB`. -/
def depthLe (a b : FileOperation) : Bool :=
  decide (pathDepth a ≤ pathDepth b)

/-- The descending depth comparator `(a, b) => depthB - depthA`. -/
def depthGe (a b : FileOperation) : Bool :=
  decide (pathDepth b ≤ pathDepth a)

/-- Model of `sortOperations`: five filter buckets concatenated in fixed
order, create-folders sorted shallowest-first, delete-folders
deepest-first (`Array.prototype.sort` is stable; the other buckets keep
their filter order). -/
def sortOperations (ops : List FileOperation) : List FileOperation :=
  let createFolders := ops.filter
    (fun op => op.type == FileOpType.create && op.nodeType == NodeType.folder)
  let createFiles := ops.filter
    (fun op => op.type == FileOpType.create && op.nodeType == NodeType.file)
  let renames := ops.filter (fun op => op.type == FileOpType.rename)
  let deleteFiles := ops.filter
    (fun op => op.type == FileOpType.delete && op.nodeType == NodeType.file)
  let deleteFolders := ops.filter
    (fun op => op.type == FileOpType.delete && op.nodeType == NodeType.folder)
  sortLe depthLe createFolders ++
    (createFiles ++ (renames ++ (deleteFiles ++ sortLe depthGe deleteFolders)))

/-- Strict descendant at the path-string level: `q` extends `p` past a
separator. -/
def strictDesc (p q : List Char) : Prop :=
  ∃ r, q = p ++ '/' :: r

theorem strictDesc_depth {p q : List Char} (h : strictDesc p q) :
    (splitSlash p).length < (splitSlash q).length := by
  obtain ⟨r, rfl⟩ := h
  rw [splitSlash_append, List.length_append]
  have := splitSlash_length_pos r
  omega

theorem strictDesc_irrefl (p : List Char) : ¬ strictDesc p p := by
  rintro ⟨r, hr⟩
  have h := congrArg List.length hr
  rw [List.length_append] at h
  simp at h

theorem depthLe_total : ∀ a b, depthLe a b = false → depthLe b a = true := by
  intro a b h
  simp [depthLe] at h ⊢
  omega

theorem depthLe_trans : ∀ a b c,
    depthLe a b = true → depthLe b c = true → depthLe a c = true := by
  intro a b c h1 h2
  simp [depthLe] at h1 h2 ⊢
  omega

theorem depthGe_total : ∀ a b, depthGe a b = false → depthGe b a = true := by
  intro a b h
  simp [depthGe] at h ⊢
  omega

theorem depthGe_trans : ∀ a b c,
    depthGe a b = true → depthGe b c = true → depthGe a c = true := by
  intro a b c h1 h2
  simp [depthGe] at h1 h2 ⊢
  omega

/-- The ordering safety relation between an earlier record `a` and a later
record `b` in the scheduled list: no create-folder ancestor comes after a
create descendant, and no delete-folder ancestor comes before a delete
descendant. -/
def safeOrder (a b : FileOperation) : Prop :=
  (¬ (b.type = .create ∧ b.nodeType = .folder ∧ a.type = .create ∧
      strictDesc b.path a.path)) ∧
  (¬ (a.type = .delete ∧ a.nodeType = .folder ∧ b.type = .delete ∧
      strictDesc a.path b.path))

theorem sortOperations_pairwise (ops : List FileOperation) :
    (sortOperations ops).Pairwise safeOrder := by
  have hcf : ∀ x ∈ sortLe depthLe (ops.filter
      (fun op => op.type == FileOpType.create && op.nodeType == NodeType.folder)),
      x.type = .create ∧ x.nodeType = .folder := by
    intro x hx
    have := List.mem_filter.mp ((mem_sortLe _ _ x).mp hx)
    simpa using this.2
  have hcfile : ∀ x ∈ ops.filter
      (fun op => op.type == FileOpType.create && op.nodeType == NodeType.file),
      x.type = .create ∧ x.nodeType = .file := by
    intro x hx
    have := List.mem_filter.mp hx
    simpa using this.2
  have hrn : ∀ x ∈ ops.filter (fun op => op.type == FileOpType.rename),
      x.type = .rename := by
    intro x hx
    have := List.mem_filter.mp hx
    simpa using this.2
  have hdfile : ∀ x ∈ ops.filter
      (fun op => op.type == FileOpType.delete && op.nodeType == NodeType.file),
      x.type = .delete ∧ x.nodeType = .file := by
    intro x hx
    have := List.mem_filter.mp hx
    simpa using this.2
  have hdf : ∀ x ∈ sortLe depthGe (ops.filter
      (fun op => op.type == FileOpType.delete && op.nodeType == NodeType.folder)),
      x.type = .delete ∧ x.nodeType = .folder := by
    intro x hx
    have := List.mem_filter.mp ((mem_sortLe _ _ x).mp hx)
    simpa using this.2
  have hsortedCF : (sortLe depthLe (ops.filter
      (fun op => op.type == FileOpType.create && op.nodeType == NodeType.folder))).Pairwise
      (depthLe · · = true) :=
    pairwise_sortLe depthLe depthLe_total depthLe_trans _
  have hsortedDF : (sortLe depthGe (ops.filter
      (fun op => op.type == FileOpType.delete && op.nodeType == NodeType.folder))).Pairwise
      (depthGe · · = true) :=
    pairwise_sortLe depthGe depthGe_total depthGe_trans _
  rw [sortOperations]
  rw [List.pairwise_append]
  refine ⟨?_, ?_, ?_⟩
  · -- within the sorted create-folder bucket
    refine hsortedCF.imp_of_mem ?_
    intro a b ha hb hle
    constructor
    · rintro ⟨hbt, hbf, hat, hdesc⟩
      have := strictDesc_depth hdesc
      simp [depthLe, pathDepth] at hle
      omega
    · rintro ⟨hat, _, _, _⟩
      rw [(hcf a ha).1] at hat
      exact FileOpType.noConfusion hat
  · rw [List.pairwise_append]
    refine ⟨?_, ?_, ?_⟩
    · -- within create-files
      refine List.pairwise_of_forall_mem_list ?_
      intro a ha b hb
      constructor
      · rintro ⟨_, hbf, _, _⟩
        rw [(hcfile b hb).2] at hbf
        exact NodeType.noConfusion hbf
      · rintro ⟨hat, _, _, _⟩
        rw [(hcfile a ha).1] at hat
        exact FileOpType.noConfusion hat
    · rw [List.pairwise_append]
      refine ⟨?_, ?_, ?_⟩
      · -- within renames
        refine List.pairwise_of_forall_mem_list ?_
        intro a ha b hb
        constructor
        · rintro ⟨hbt, _, _, _⟩
          rw [hrn b hb] at hbt
          exact FileOpType.noConfusion hbt
        · rintro ⟨hat, _, _, _⟩
          rw [hrn a ha] at hat
          exact FileOpType.noConfusion hat
      · rw [List.pairwise_append]
        refine ⟨?_, ?_, ?_⟩
        · -- within delete-files
          refine List.pairwise_of_forall_mem_list ?_
          intro a ha b hb
          constructor
          · rintro ⟨hbt, _, _, _⟩
            rw [(hdfile b hb).1] at hbt
            exact FileOpType.noConfusion hbt
          · rintro ⟨_, haf, _, _⟩
            rw [(hdfile a ha).2] at haf
            exact NodeType.noConfusion haf
        · -- within the sorted delete-folder bucket
          refine hsortedDF.imp_of_mem ?_
          intro a b ha hb hle
          constructor
          · rintro ⟨hbt, _, _, _⟩
            rw [(hdf b hb).1] at hbt
            exact FileOpType.noConfusion hbt
          · rintro ⟨hat, haf, hbt, hdesc⟩
            have := strictDesc_depth hdesc
            simp [depthGe, pathDepth] at hle
            omega
        · -- delete-files before delete-folders
          intro a ha b hb
          constructor
          · rintro ⟨hbt, _, _, _⟩
            rw [(hdf b hb).1] at hbt
            exact FileOpType.noConfusion hbt
          · rintro ⟨_, haf, _, _⟩
            rw [(hdfile a ha).2] at haf
            exact NodeType.noConfusion haf
      · -- renames before the delete buckets
        intro a ha b hb
        constructor
        · rintro ⟨hbt, hbf, _, _⟩
          rcases List.mem_append.mp hb with hb | hb
          · rw [(hdfile b hb).1] at hbt
            exact FileOpType.noConfusion hbt
          · rw [(hdf b hb).1] at hbt
            exact FileOpType.noConfusion hbt
        · rintro ⟨hat, _, _, _⟩
          rw [hrn a ha] at hat
          exact FileOpType.noConfusion hat
    · -- create-files before renames and deletes
      intro a ha b hb
      constructor
      · rintro ⟨hbt, hbf, _, _⟩
        rcases List.mem_append.mp hb with hb | hb
        · rw [hrn b hb] at hbt
          exact FileOpType.noConfusion hbt
        rcases List.mem_append.mp hb with hb | hb
        · rw [(hdfile b hb).1] at hbt
          exact FileOpType.noConfusion hbt
        · rw [(hdf b hb).1] at hbt
          exact FileOpType.noConfusion hbt
      · rintro ⟨hat, _, _, _⟩
        rw [(hcfile a ha).1] at hat
        exact FileOpType.noConfusion hat
  · -- create-folders before everything else
    intro a ha b hb
    constructor
    · rintro ⟨hbt, hbf, hat, hdesc⟩
      rcases List.mem_append.mp hb with hb | hb
      · rw [(hcfile b hb).2] at hbf
        exact NodeType.noConfusion hbf
      rcases List.mem_append.mp hb with hb | hb
      · rw [hrn b hb] at hbt
        exact FileOpType.noConfusion hbt
      rcases List.mem_append.mp hb with hb | hb
      · rw [(hdfile b hb).1] at hbt
        exact FileOpType.noConfusion hbt
      · rw [(hdf b hb).1] at hbt
        exact FileOpType.noConfusion hbt
    · rintro ⟨hat, _, _, _⟩
      rw [(hcf a ha).1] at hat
      exact FileOpType.noConfusion hat

/-- C2 — safety ordering of the scheduled output.  In `sortOperations`'s
output, every create record for a folder at path `P` precedes every create
record (file or folder) whose path is a strict descendant of `P`, and every
delete record for a folder at path `P` follows every delete record whose
path is a strict descendant of `P`. -/
theorem sortOperations_ordering (ops : List FileOperation)
    (i j : Nat) (hi : i < (sortOperations ops).length)
    (hj : j < (sortOperations ops).length) :
    (((sortOperations ops).get ⟨i, hi⟩).type = .create →
      ((sortOperations ops).get ⟨i, hi⟩).nodeType = .folder →
      ((sortOperations ops).get ⟨j, hj⟩).type = .create →
      strictDesc ((sortOperations ops).get ⟨i, hi⟩).path
        ((sortOperations ops).get ⟨j, hj⟩).path → i < j) ∧
    (((sortOperations ops).get ⟨i, hi⟩).type = .delete →
      ((sortOperations ops).get ⟨i, hi⟩).nodeType = .folder →
      ((sortOperations ops).get ⟨j, hj⟩).type = .delete →
      strictDesc ((sortOperations ops).get ⟨i, hi⟩).path
        ((sortOperations ops).get ⟨j, hj⟩).path → j < i) := by
  have hPW := sortOperations_pairwise ops
  have hget := List.pairwise_iff_get.mp hPW
  constructor
  · intro h1 h2 h3 h4
    by_contra hij
    rcases Nat.lt_or_ge j i with hji | hji
    · have := (hget ⟨j, hj⟩ ⟨i, hi⟩ hji).1
      exact this ⟨h1, h2, h3, h4⟩
    · have : i = j := by omega
      subst this
      exact strictDesc_irrefl _ h4
  · intro h1 h2 h3 h4
    by_contra hij
    rcases Nat.lt_or_ge i j with hji | hji
    · have := (hget ⟨i, hi⟩ ⟨j, hj⟩ hji).2
      exact this ⟨h1, h2, h3, h4⟩
    · have : i = j := by omega
      subst this
      exact strictDesc_irrefl _ h4

/-- Witness for `sortOperations_ordering`: scheduling a create-file
`ws/a/b.txt` listed before the create-folder `ws/a` still places the folder
(index 0) before its descendant file (index 1). -/
theorem sortOperations_ordering_witness : (0 : Nat) < 1 :=
  (sortOperations_ordering
    [⟨.create, "ws/a/b.txt".data, none, .file⟩,
     ⟨.create, "ws/a".data, none, .folder⟩] 0 1 (by decide) (by decide)).1
    (by decide) (by decide) (by decide) ⟨"b.txt".data, by decide⟩

/-! ## The markdown parser (`src/parser/markdownParser.ts`)

The regular-expression operations of `parseLine` are translated into
explicit scans with the backtracking semantics of the concrete regexes.
Several helpers take an explicit fuel argument (always instantiated with
the input length, which bounds the number of scan steps) so that every
definition is structurally recursive and kernel-evaluable. -/

/-- One step of the `/[├└│]─?\s*/g` replacement: after one of the three
tree symbols, an optional `─` and the following whitespace run are
consumed. -/
def stripDash : List Char → List Char
  | '─' :: r => r
  | r => r

def stripTreeSymbolsFuel : Nat → List Char → List Char
  | 0, l => l
  | _ + 1, [] => []
  | fuel + 1, c :: rest =>
    if c = '├' ∨ c = '└' ∨ c = '│' then
      stripTreeSymbolsFuel fuel ((stripDash rest).dropWhile jsWs)
    else c :: stripTreeSymbolsFuel fuel rest

/-- Model of `line.replace(/[├└│]─?\s*/g, "")`. -/
def stripTreeSymbols (l : List Char) : List Char :=
  stripTreeSymbolsFuel l.length l

/-- Model of `(line.split(/[├└]/)[0].match(/│/g) || []).length`: the number
of `│` characters before the first `├` or `└`. -/
def pipeCount (line : List Char) : Nat :=
  ((line.takeWhile (fun c => !(c == '├' || c == '└'))).filter
    (fun c => c == '│')).length

/-- Search for the lazy `.+?` followed by `]`: the smallest `k ≥ 1` such
that the first `k` characters match `.` (no line terminators) and the next
character is `]`. -/
def lazyDotUntilBracket : List Char → Option Nat
  | [] => none
  | c :: rest =>
    if lineTerm c then none
    else
      match rest with
      | ']' :: _ => some 1
      | _ => (lazyDotUntilBracket rest).map (· + 1)

/-- Backtracking for `\s+` in the alternative `\[~\s+.+?\]` of the
marker-counting regex: try the whitespace-run length `w` from the maximal
run downwards; for each, the lazy `.+?]` must succeed.  Returns the length
of the whole match (counting `[~`, the run, the lazy part and `]`). -/
def renameAltLen (r3 : List Char) : Nat → Option Nat
  | 0 => none
  | w + 1 =>
    match lazyDotUntilBracket (r3.drop (w + 1)) with
    | some k => some (2 + (w + 1) + k + 1)
    | none => renameAltLen r3 w

/-- Length of the marker-regex match starting exactly here, alternatives in
source order: `\[\+\]`, `\[-\]`, `\[~\s+.+?\]`. -/
def matchMarkerAt (l : List Char) : Option Nat :=
  match l with
  | '[' :: '+' :: ']' :: _ => some 3
  | '[' :: '-' :: ']' :: _ => some 3
  | '[' :: '~' :: r3 => renameAltLen r3 ((r3.takeWhile jsWs).length)
  | _ => none

def countMarkersFuel : Nat → List Char → Nat
  | 0, _ => 0
  | _ + 1, [] => 0
  | fuel + 1, c :: rest =>
    match matchMarkerAt (c :: rest) with
    | some n => 1 + countMarkersFuel fuel ((c :: rest).drop n)
    | none => countMarkersFuel fuel rest

/-- Model of `(cleanLine.match(/\[\+\]|\[-\]|\[~\s+.+?\]/g) || []).length`:
the global scan resumes after each match and advances one character after
each failure. -/
def countMarkers (l : List Char) : Nat :=
  countMarkersFuel l.length l

/-- The `\s+.+` part of `/\[~\s+.+\]$/` over the text `t` between `[~`
and the final `]`: some split into a nonempty whitespace run and a
nonempty run of non-terminators exists. -/
def renameTailOk (t : List Char) : Bool :=
  (List.range t.length).any (fun k =>
    decide (1 ≤ k) && (t.take k).all jsWs && !(t.drop k).isEmpty &&
      (t.drop k).all (fun c => !lineTerm c))

/-- Does the suffix starting here match `\[~\s+.+\]$` (the `$` is the end
of the whole line, which is the end of every suffix)? -/
def matchRenameAt (l : List Char) : Bool :=
  match l with
  | '[' :: '~' :: t =>
    match t.getLast? with
    | some ']' => renameTailOk t.dropLast
    | _ => false
  | _ => false

/-- Model of the test `cleanLine.match(/\[~\s+.+\]$/)`; the match may
start at any position. -/
def hasRenameSuffix : List Char → Bool
  | [] => false
  | c :: rest => matchRenameAt (c :: rest) || hasRenameSuffix rest

/-- The second `\s+` of `/^(.+?)\s+\[~\s+(.+?)\]$/` with backtracking
from the maximal whitespace run downwards: for run length `w`, the lazy
second group is forced to reach the final `]`, and must be nonempty and
free of line terminators. -/
def renameTailCapture (r3 : List Char) : Nat → Option (List Char)
  | 0 => none
  | w + 1 =>
    let body := r3.drop (w + 1)
    let g2 := body.dropLast
    if body.getLast? = some ']' ∧ g2 ≠ [] ∧ g2.all (fun c => !lineTerm c) then
      some g2
    else renameTailCapture r3 w

def renameCaptureAux (s : List Char) : Nat → Nat → Option (List Char × List Char)
  | 0, _ => none
  | fuel + 1, n =>
    if s.length < n then none
    else
      let g1 := s.take n
      if g1.all (fun c => !lineTerm c) then
        let rest := s.drop n
        let found :=
          if (rest.takeWhile jsWs).length ≥ 1 then
            match rest.dropWhile jsWs with
            | '[' :: '~' :: r3 =>
              renameTailCapture r3 ((r3.takeWhile jsWs).length)
            | _ => none
          else none
        match found with
        | some g2 => some (g1, g2)
        | none => renameCaptureAux s fuel (n + 1)
      else none

/-- Model of `cleanLine.match(/^(.+?)\s+\[~\s+(.+?)\]$/)`: the lazy first
group grows from length 1; both captures per the engine's backtracking
order. -/
def renameCapture (s : List Char) : Option (List Char × List Char) :=
  renameCaptureAux s s.length 1

/-- Model of `trimmed.match(/\.\w+\s*(\[|$)/)`: a dot followed by at
least one word character, then (after the maximal word and whitespace runs,
the only runs the backtracking can accept) a `[` or the end of the
string. -/
def dotPattern : List Char → Bool
  | [] => false
  | c :: rest =>
    (if c = '.' then
      (let w := rest.takeWhile wordChar
       if w ≠ [] then
         (match (rest.drop w.length).dropWhile jsWs with
          | [] => true
          | '[' :: _ => true
          | _ => false)
       else false)
     else false) || dotPattern rest

def containsSeq2 (a b : Char) : List Char → Bool
  | c :: d :: rest => (c = a ∧ d = b : Bool) || containsSeq2 a b (d :: rest)
  | _ => false

/-- Model of `line.includes("├─") || line.includes("└─") ||
line.includes("│")`. -/
def hasTreeSymbol (line : List Char) : Bool :=
  containsSeq2 '├' '─' line || containsSeq2 '└' '─' line || line.contains '│'

/-- Model of `PathUtils.isValidNodeName`. -/
def isValidNodeName (name : List Char) : Bool :=
  if jsTrim name = [] then false
  else if name.contains '/' || name.contains '\\' then false
  else if name = "..".data ∨ name = ".".data then false
  else if name.any (fun c =>
      c == '<' || c == '>' || c == ':' || c == '"' || c == '|' ||
      c == '?' || c == '*' || decide (c.toNat ≤ 0x1F)) then false
  else true

structure ParseError where
  line : Option Nat
  message : List Char
  deriving DecidableEq

structure ParsedLine where
  indent : Nat
  name : List Char
  isFolder : Bool
  lineNumber : Nat
  operation : Option Operation
  renameTo : Option (List Char)
  deriving DecidableEq

/-- Model of `MarkdownParser.parseLine`.  Tree symbols are stripped and the
result trimmed; the indent is twice the pipe count; the trailing-marker
chain runs in source order (`[+]`, `[-]`, rename suffix with the anchored
capture regex); then the multi-marker count check, folder detection by a
trailing `/`, and the name/rename-target validity checks. -/
def parseLine (line : List Char) (lineNumber : Nat) :
    Except ParseError ParsedLine :=
  let cleanLine := jsTrim (stripTreeSymbols line)
  let indentLevel := pipeCount line * 2
  let step : Except ParseError (Option Operation × Option (List Char) × List Char) :=
    if "[+]".data.isSuffixOf cleanLine then
      .ok (some .create, none, jsTrim (cleanLine.take (cleanLine.length - 3)))
    else if "[-]".data.isSuffixOf cleanLine then
      .ok (some .delete, none, jsTrim (cleanLine.take (cleanLine.length - 3)))
    else if hasRenameSuffix cleanLine then
      match renameCapture cleanLine with
      | some (g1, g2) => .ok (some .rename, some (jsTrim g2), jsTrim g1)
      | none =>
        .error ⟨some lineNumber, "Invalid rename marker format at line ".data ++
          (Nat.repr lineNumber).data⟩
    else .ok (none, none, cleanLine)
  match step with
  | .error e => .error e
  | .ok (operation, renameTo, name) =>
    if countMarkers cleanLine > 1 then
      .error ⟨some lineNumber,
        "Cannot combine multiple operation markers on one line".data⟩
    else
      let isFolder := name.getLast? = some '/'
      let cleanName := if isFolder then name.dropLast else name
      if cleanName = [] then
        .error ⟨some lineNumber, "Empty node name at line ".data ++
          (Nat.repr lineNumber).data⟩
      else if !(isValidNodeName cleanName) then
        .error ⟨some lineNumber, "Invalid node name: ".data ++ cleanName⟩
      else if (match renameTo with
          | some rt => !rt.isEmpty && !(isValidNodeName rt)
          | none => false) then
        .error ⟨some lineNumber, "Invalid rename target: ".data ++
          (renameTo.getD [])⟩
      else .ok ⟨indentLevel, cleanName, isFolder, lineNumber, operation, renameTo⟩

inductive LineResult where
  | skip
  | err (e : ParseError)
  | line (pl : ParsedLine)

/-- The per-line dispatch of `MarkdownParser.parse`: blank lines, `#` lines
and `<!--` lines are skipped; a line with none of the tree symbols that
does not look like a path (no trailing `/`, no dot-extension pattern) is
skipped; everything else goes to `parseLine`. -/
def classifyLine (line : List Char) (lineNumber : Nat) : LineResult :=
  let trimmed := jsTrim line
  if trimmed = [] then .skip
  else if "#".data.isPrefixOf trimmed then .skip
  else if "<!--".data.isPrefixOf trimmed then .skip
  else if !(hasTreeSymbol line) &&
      !((trimmed.getLast? = some '/' : Bool) || dotPattern trimmed) then .skip
  else
    match parseLine line lineNumber with
    | .error e => .err e
    | .ok pl => .line pl

/-- Model of `content.split("\n")`. -/
def splitNewline : List Char → List (List Char)
  | [] => [[]]
  | c :: r =>
    if c = '\n' then [] :: splitNewline r
    else (splitNewline r).modifyHead (c :: ·)

/-- The line loop of `parse`: collect the errors and the parsed lines of
all lines (the numbering starts at 1). -/
def collectLines : List (List Char) → Nat → List ParseError × List ParsedLine
  | [], _ => ([], [])
  | l :: rest, i =>
    let tail := collectLines rest (i + 1)
    match classifyLine l i with
    | .skip => tail
    | .err e => (e :: tail.1, tail.2)
    | .line pl => (tail.1, pl :: tail.2)

def appendForest : Forest → TreeNode → Forest
  | .nil, t => .cons t .nil
  | .cons x f, t => .cons x (appendForest f t)

/-- Append a child at the end of a parent's children array (creating the
array when it is `undefined`, as `parent.children = []` does). -/
def addChildNode (p : TreeNode) (child : TreeNode) : TreeNode :=
  match p with
  | .mk n ty c o r =>
    match c with
    | .undef => .mk n ty (.arr (.cons child .nil)) o r
    | .arr f => .mk n ty (.arr (appendForest f child)) o r

/-- The `while (stack.length > 0 && top.indent >= indent) stack.pop()` loop
of `buildTree`.  In this functional rendering a node is attached to its
parent when it is popped; attachment order equals the imperative push
order, because a node receives children only while it is the top of the
stack.  The fuel is the stack length (each iteration pops one entry). -/
def popLoopFuel : Nat → List (TreeNode × Int) → Int → List (TreeNode × Int)
  | 0, stack, _ => stack
  | _ + 1, [], _ => []
  | fuel + 1, (nd, i) :: rest, ind =>
    if i ≥ ind then
      match rest with
      | [] => []
      | (p, j) :: rs => popLoopFuel fuel ((addChildNode p nd, j) :: rs) ind
    else (nd, i) :: rest

def popLoop (stack : List (TreeNode × Int)) (ind : Int) :
    List (TreeNode × Int) :=
  popLoopFuel stack.length stack ind

/-- One line of `buildTree`: pop to the parent, fail on an empty stack or a
file parent, attach a file child immediately, push a folder child. -/
def buildStep (stack : List (TreeNode × Int)) (pl : ParsedLine) :
    Except (List Char) (List (TreeNode × Int)) :=
  let node : TreeNode := .mk pl.name (if pl.isFolder then .folder else .file)
    (if pl.isFolder then .arr .nil else .undef) pl.operation pl.renameTo
  match popLoop stack (pl.indent : Int) with
  | [] => .error ("Invalid indentation at line ".data ++
      (Nat.repr pl.lineNumber).data)
  | (p, j) :: rs =>
    if p.type ≠ .folder then
      .error ("Cannot add child to file at line ".data ++
        (Nat.repr pl.lineNumber).data)
    else if node.type = .folder then
      .ok ((node, (pl.indent : Int)) :: (p, j) :: rs)
    else
      .ok ((addChildNode p node, j) :: rs)

/-- Collapse the remaining stack at the end of the line loop, attaching
every still-open folder to its parent; the root remains. -/
def collapseFuel : Nat → List (TreeNode × Int) → Option TreeNode
  | _, [] => none
  | _, [(nd, _)] => some nd
  | 0, _ :: _ :: _ => none
  | fuel + 1, (nd, _) :: (p, j) :: rs =>
    collapseFuel fuel ((addChildNode p nd, j) :: rs)

def collapseStack (stack : List (TreeNode × Int)) : Option TreeNode :=
  collapseFuel stack.length stack

/-- Model of `MarkdownParser.buildTree`, starting from the synthetic root
(`{name: "root", type: "folder", children: []}`) at indent `-2`. -/
def buildTree (pls : List ParsedLine) : Except (List Char) TreeNode :=
  go pls [(.mk "root".data .folder (.arr .nil) none none, (-2 : Int))]
where
  go : List ParsedLine → List (TreeNode × Int) → Except (List Char) TreeNode
    | [], stack =>
      match collapseStack stack with
      | some t => .ok t
      | none => .error "empty stack".data
    | pl :: rest, stack =>
      match buildStep stack pl with
      | .error e => .error e
      | .ok stack2 => go rest stack2

structure ParseResult where
  tree : Option TreeNode
  errors : List ParseError

/-- Model of `MarkdownParser.parse`: split into lines, classify and collect
every line's outcome, return none-with-errors when any line errored,
none-with-a-sentinel-error when nothing parsed, otherwise build the tree
(converting a thrown build error into a line-less `ParseError`). -/
def parse (content : List Char) : ParseResult :=
  let collected := collectLines (splitNewline content) 1
  if collected.1 ≠ [] then ⟨none, collected.1⟩
  else if collected.2 = [] then
    ⟨none, [⟨none, "No valid tree structure found".data⟩]⟩
  else
    match buildTree collected.2 with
    | .ok t => ⟨some t, []⟩
    | .error msg => ⟨none, [⟨none, msg⟩]⟩

mutual
/-- Each node's name with its depth below the root (used to state C9). -/
def nodeDepths : TreeNode → Nat → List (List Char × Nat)
  | .mk _ _ c _ _, d =>
    match c with
    | .undef => []
    | .arr f => forestDepths f d

/-- The forest part of `nodeDepths`. -/
def forestDepths : Forest → Nat → List (List Char × Nat)
  | .nil, _ => []
  | .cons t f, d =>
    (t.name, d + 1) :: (nodeDepths t (d + 1) ++ forestDepths f d)
end

/-! ### C5: multi-marker lines are rejected -/

/-- C5 — any line whose cleaned text carries two or more marker-token
matches (the code's count of non-overlapping `\[\+\]`, `\[-\]`,
`\[~\s+.+?\]` occurrences) is rejected by `parseLine` with a ParseError
located at that line, and no node is produced for it. -/
theorem parseLine_multi_marker (line : List Char) (n : Nat)
    (h : countMarkers (jsTrim (stripTreeSymbols line)) > 1) :
    ∃ e, parseLine line n = .error e ∧ e.line = some n := by
  unfold parseLine
  dsimp only
  by_cases h1 : "[+]".data.isSuffixOf (jsTrim (stripTreeSymbols line)) = true
  · rw [if_pos h1]
    dsimp only
    rw [if_pos h]
    exact ⟨_, rfl, rfl⟩
  · rw [if_neg h1]
    by_cases h2 : "[-]".data.isSuffixOf (jsTrim (stripTreeSymbols line)) = true
    · rw [if_pos h2]
      dsimp only
      rw [if_pos h]
      exact ⟨_, rfl, rfl⟩
    · rw [if_neg h2]
      by_cases h3 : hasRenameSuffix (jsTrim (stripTreeSymbols line)) = true
      · rw [if_pos h3]
        rcases hc : renameCapture (jsTrim (stripTreeSymbols line)) with _ | ⟨g1, g2⟩
        · exact ⟨_, rfl, rfl⟩
        · dsimp only
          rw [if_pos h]
          exact ⟨_, rfl, rfl⟩
      · rw [if_neg h3]
        dsimp only
        rw [if_pos h]
        exact ⟨_, rfl, rfl⟩

/-- Witness for `parseLine_multi_marker`: the line `a.txt [+] [-]` carries
two markers and is rejected with a line-5 error. -/
theorem parseLine_multi_marker_witness :
    countMarkers (jsTrim (stripTreeSymbols "a.txt [+] [-]".data)) > 1 ∧
    ∃ e, parseLine "a.txt [+] [-]".data 5 = .error e ∧ e.line = some 5 :=
  ⟨by decide, parseLine_multi_marker "a.txt [+] [-]".data 5 (by decide)⟩

/-! ### C10: non-structural lines are skipped silently -/

/-- C10 — a non-blank line that does not start with `#` or `<!--`, contains
none of the tree symbols `├─`, `└─`, `│`, does not end with `/` after
trimming, and does not match the dot-extension pattern, is skipped
entirely: it produces neither a parsed line nor a ParseError, and the line
loop treats it as absent. -/
theorem parse_skips_nonstructural (line : List Char) (n : Nat)
    (h1 : jsTrim line ≠ [])
    (h2 : "#".data.isPrefixOf (jsTrim line) = false)
    (h3 : "<!--".data.isPrefixOf (jsTrim line) = false)
    (h4 : hasTreeSymbol line = false)
    (h5 : (jsTrim line).getLast? ≠ some '/')
    (h6 : dotPattern (jsTrim line) = false) :
    classifyLine line n = .skip ∧
    (∀ rest : List (List Char),
      collectLines (line :: rest) n = collectLines rest (n + 1)) := by
  have hskip : classifyLine line n = .skip := by
    unfold classifyLine
    rw [if_neg h1, if_neg (by simp [h2]), if_neg (by simp [h3]),
      if_pos (by simp [h4, h5, h6])]
  refine ⟨hskip, ?_⟩
  intro rest
  conv_lhs => rw [collectLines]
  rw [hskip]

/-- Witness for `parse_skips_nonstructural`: a bare `Makefile` line is
silently dropped. -/
theorem parse_skips_nonstructural_witness :
    classifyLine "Makefile".data 7 = .skip ∧
    collectLines ["Makefile".data] 7 = collectLines [] 8 :=
  ⟨(parse_skips_nonstructural "Makefile".data 7 (by decide) (by decide)
      (by decide) (by decide) (by decide) (by decide)).1,
    (parse_skips_nonstructural "Makefile".data 7 (by decide) (by decide)
      (by decide) (by decide) (by decide) (by decide)).2 []⟩

/-! ### C6: none-or-all parsing -/

/-- C6 — `parse` is none-or-all: a tree is returned only when zero errors
occurred (a non-null tree comes with an empty error list, a non-empty error
list comes with a null tree), and when any line-level parse errors exist,
the returned error list is exactly the collection of all of them — the
loop never stops at the first offending line. -/
theorem parse_none_or_all (content : List Char) :
    ((parse content).tree ≠ none → (parse content).errors = []) ∧
    ((parse content).errors ≠ [] → (parse content).tree = none) ∧
    ((collectLines (splitNewline content) 1).1 ≠ [] →
      parse content = ⟨none, (collectLines (splitNewline content) 1).1⟩) := by
  unfold parse
  dsimp only
  by_cases h1 : (collectLines (splitNewline content) 1).1 ≠ []
  · rw [if_pos h1]
    refine ⟨?_, ?_, ?_⟩
    · intro h
      exact absurd rfl h
    · intro _
      rfl
    · intro _
      rfl
  · rw [if_neg h1]
    by_cases h2 : (collectLines (splitNewline content) 1).2 = []
    · rw [if_pos h2]
      refine ⟨?_, ?_, ?_⟩
      · intro h
        exact absurd rfl h
      · intro _
        rfl
      · intro h
        exact absurd h h1
    · rw [if_neg h2]
      rcases hb : buildTree (collectLines (splitNewline content) 1).2 with e | t
      · refine ⟨?_, ?_, ?_⟩
        · intro h
          exact absurd rfl h
        · intro _
          rfl
        · intro h
          exact absurd h h1
      · refine ⟨?_, ?_, ?_⟩
        · intro _
          rfl
        · intro h
          exact absurd rfl h
        · intro h
          exact absurd h h1

/-- Witness for `parse_none_or_all`: an input whose two lines each carry an
invalid name yields a null tree together with both collected errors. -/
theorem parse_none_or_all_witness :
    parse "bad|.txt [+]\nalso|.txt".data =
      ⟨none, (collectLines (splitNewline "bad|.txt [+]\nalso|.txt".data) 1).1⟩ ∧
    (collectLines (splitNewline "bad|.txt [+]\nalso|.txt".data) 1).1.length = 2 :=
  ⟨(parse_none_or_all "bad|.txt [+]\nalso|.txt".data).2.2 (by decide), by decide⟩

/-! ### C7: node-name validity -/

theorem jsTrim_eq_nil_iff (l : List Char) : jsTrim l = [] ↔ l.all jsWs = true := by
  unfold jsTrim
  rw [List.reverse_eq_nil_iff, List.dropWhile_eq_nil_iff, List.all_eq_true]
  constructor
  · intro h c hc
    have hsplit : l.takeWhile jsWs ++ l.dropWhile jsWs = l :=
      List.takeWhile_append_dropWhile jsWs l
    rw [← hsplit] at hc
    rcases List.mem_append.mp hc with h2 | h2
    · exact List.mem_takeWhile_imp h2
    · exact h c (List.mem_reverse.mpr h2)
  · intro h c hc
    exact h c ((List.dropWhile_sublist jsWs).subset (List.mem_reverse.mp hc))

theorem isValidNodeName_false_iff (name : List Char) :
    isValidNodeName name = false ↔
      (name.all jsWs = true ∨ name = ".".data ∨ name = "..".data ∨
        '/' ∈ name ∨ '\\' ∈ name ∨
        ∃ c ∈ name, (c = '<' ∨ c = '>' ∨ c = ':' ∨ c = '"' ∨ c = '|' ∨
          c = '?' ∨ c = '*' ∨ c.toNat ≤ 0x1F)) := by
  unfold isValidNodeName
  split_ifs with h1 h2 h3 h4
  · exact iff_of_true rfl (Or.inl ((jsTrim_eq_nil_iff name).mp h1))
  · refine iff_of_true rfl ?_
    rcases Bool.or_eq_true_iff.mp h2 with h | h
    · exact Or.inr (Or.inr (Or.inr (Or.inl (by simpa using h))))
    · exact Or.inr (Or.inr (Or.inr (Or.inr (Or.inl (by simpa using h)))))
  · refine iff_of_true rfl ?_
    rcases h3 with h | h
    · exact Or.inr (Or.inr (Or.inl h))
    · exact Or.inr (Or.inl h)
  · refine iff_of_true rfl ?_
    refine Or.inr (Or.inr (Or.inr (Or.inr (Or.inr ?_))))
    obtain ⟨c, hc, hp⟩ := List.any_eq_true.mp h4
    refine ⟨c, hc, ?_⟩
    simp only [Bool.or_eq_true_iff, decide_eq_true_eq, beq_iff_eq] at hp
    tauto
  · refine iff_of_false (by simp) ?_
    rintro (h | h | h | h | h | ⟨c, hc, hp⟩)
    · exact h1 ((jsTrim_eq_nil_iff name).mpr h)
    · exact h3 (Or.inr h)
    · exact h3 (Or.inl h)
    · exact h2 (by simp [h])
    · exact h2 (by simp [h])
    · refine h4 (List.any_eq_true.mpr ⟨c, hc, ?_⟩)
      simp only [Bool.or_eq_true_iff, decide_eq_true_eq, beq_iff_eq]
      tauto

/-- Inversion of a successful `parseLine`: the produced node name passed
`isValidNodeName`, and the indent is twice the pipe count. -/
theorem parseLine_ok_props (line : List Char) (n : Nat) (pl : ParsedLine)
    (h : parseLine line n = .ok pl) :
    isValidNodeName pl.name = true ∧ pl.indent = pipeCount line * 2 := by
  unfold parseLine at h
  dsimp only at h
  split at h
  · exact absurd h (by simp)
  · split at h
    · exact absurd h (by simp)
    · split at h <;>
        (split at h
         · exact absurd h (by simp)
         · split at h
           · exact absurd h (by simp)
           · split at h
             · exact absurd h (by simp)
             · rename_i hvalid _
               simp only [Except.ok.injEq] at h
               subst h
               exact ⟨by simpa using hvalid, rfl⟩)

/-- C7 — `isValidNodeName` returns `false` exactly for the empty or
whitespace-only string, `.`, `..`, names containing a path separator, and
names containing one of `< > : " | ? *` or a C0 control character
(`\x00`–`\x1F`, the control class the rejection regex names); and every
node produced by `parseLine` carries a name that passed this check — a
name like `../escape` is rejected at parse time and never reaches
extraction or scheduling. -/
theorem nodeName_validity :
    (∀ name : List Char, isValidNodeName name = false ↔
      (name.all jsWs = true ∨ name = ".".data ∨ name = "..".data ∨
        '/' ∈ name ∨ '\\' ∈ name ∨
        ∃ c ∈ name, (c = '<' ∨ c = '>' ∨ c = ':' ∨ c = '"' ∨ c = '|' ∨
          c = '?' ∨ c = '*' ∨ c.toNat ≤ 0x1F))) ∧
    (∀ (line : List Char) (n : Nat) (pl : ParsedLine),
      parseLine line n = .ok pl → isValidNodeName pl.name = true) :=
  ⟨isValidNodeName_false_iff,
    fun line n pl h => (parseLine_ok_props line n pl h).1⟩

/-- Witness for `nodeName_validity`: the parsed line `├─ a.txt` yields a
valid name, and `../escape` is rejected by the name validator. -/
theorem nodeName_validity_witness :
    isValidNodeName "a.txt".data = true ∧
    isValidNodeName "../escape".data = false :=
  ⟨nodeName_validity.2 "├─ a.txt".data 1
      ⟨0, "a.txt".data, false, 1, none, none⟩ (by rfl),
    (nodeName_validity.1 "../escape".data).mpr
      (Or.inr (Or.inr (Or.inr (Or.inl (by decide)))))⟩

/-! ### C9: depth comes from pipe count, not spaces -/

theorem stripTreeSymbols_cons_of_not {c : Char} (rest : List Char)
    (hc : ¬(c = '├' ∨ c = '└' ∨ c = '│')) :
    stripTreeSymbols (c :: rest) = c :: stripTreeSymbols rest := by
  show stripTreeSymbolsFuel (c :: rest).length (c :: rest) = _
  rw [List.length_cons]
  show stripTreeSymbolsFuel (rest.length + 1) (c :: rest) = _
  rw [stripTreeSymbolsFuel]
  rw [if_neg hc]
  rfl

theorem stripTreeSymbols_leading_ws {sp : List Char} (line : List Char)
    (hsp : ∀ c ∈ sp, c = ' ' ∨ c = '\t') :
    stripTreeSymbols (sp ++ line) = sp ++ stripTreeSymbols line := by
  induction sp with
  | nil => simp
  | cons c sp ih =>
    have hc : ¬(c = '├' ∨ c = '└' ∨ c = '│') := by
      rcases hsp c (by simp) with rfl | rfl <;> simp
    rw [List.cons_append, stripTreeSymbols_cons_of_not _ hc,
      ih (fun d hd => hsp d (by simp [hd])), List.cons_append]

theorem dropWhile_append_of_all {sp : List Char} (x : List Char)
    (p : Char → Bool) (h : ∀ c ∈ sp, p c = true) :
    (sp ++ x).dropWhile p = x.dropWhile p := by
  induction sp with
  | nil => simp
  | cons c sp ih =>
    rw [List.cons_append, List.dropWhile_cons, if_pos (h c (by simp))]
    exact ih (fun d hd => h d (by simp [hd]))

theorem takeWhile_append_of_all {sp : List Char} (x : List Char)
    (p : Char → Bool) (h : ∀ c ∈ sp, p c = true) :
    (sp ++ x).takeWhile p = sp ++ x.takeWhile p := by
  induction sp with
  | nil => simp
  | cons c sp ih =>
    rw [List.cons_append, List.takeWhile_cons, if_pos (h c (by simp))]
    rw [ih (fun d hd => h d (by simp [hd])), List.cons_append]

theorem jsTrim_leading_ws {sp : List Char} (x : List Char)
    (hsp : ∀ c ∈ sp, c = ' ' ∨ c = '\t') :
    jsTrim (sp ++ x) = jsTrim x := by
  unfold jsTrim
  rw [dropWhile_append_of_all x jsWs
    (fun c hc => by rcases hsp c hc with rfl | rfl <;> rfl)]

theorem pipeCount_leading_ws {sp : List Char} (line : List Char)
    (hsp : ∀ c ∈ sp, c = ' ' ∨ c = '\t') :
    pipeCount (sp ++ line) = pipeCount line := by
  unfold pipeCount
  rw [takeWhile_append_of_all line _
    (fun c hc => by rcases hsp c hc with rfl | rfl <;> rfl)]
  rw [List.filter_append]
  have h0 : sp.filter (fun c => c == '│') = [] := by
    rw [List.filter_eq_nil_iff]
    intro c hc
    rcases hsp c hc with rfl | rfl <;> simp
  rw [h0]
  simp

/-- C9 (amended) — the parser derives a line's nesting depth solely from
the pipe count (the stored indent is exactly twice the number of `│`
characters before the first branch symbol), and leading spaces and tabs
never influence the parse: prefixing a line with any run of spaces and
tabs leaves `parseLine`'s result unchanged.  (Equal pipe counts do *not*
guarantee equal final tree depth — see the counterexample — so the claim's
last consequence is amended away.) -/
theorem parseLine_depth_from_pipes :
    (∀ (sp line : List Char) (n : Nat), (∀ c ∈ sp, c = ' ' ∨ c = '\t') →
      parseLine (sp ++ line) n = parseLine line n) ∧
    (∀ (line : List Char) (n : Nat) (pl : ParsedLine),
      parseLine line n = .ok pl → pl.indent = pipeCount line * 2) := by
  constructor
  · intro sp line n hsp
    have h1 : jsTrim (stripTreeSymbols (sp ++ line)) =
        jsTrim (stripTreeSymbols line) := by
      rw [stripTreeSymbols_leading_ws line hsp, jsTrim_leading_ws _ hsp]
    have h2 : pipeCount (sp ++ line) = pipeCount line :=
      pipeCount_leading_ws line hsp
    unfold parseLine
    rw [h1, h2]
  · intro line n pl h
    exact (parseLine_ok_props line n pl h).2

/-- Witness for `parseLine_depth_from_pipes`: four leading spaces do not
change the parse of `│ b/`, whose indent is 2 = 2 × its one pipe. -/
theorem parseLine_depth_from_pipes_witness :
    parseLine ("    │ b/").data 3 = parseLine "│ b/".data 3 ∧
    ∀ pl, parseLine "│ b/".data 3 = .ok pl → pl.indent = pipeCount "│ b/".data * 2 :=
  ⟨by
      have h := parseLine_depth_from_pipes.1 "    ".data "│ b/".data 3 (by decide)
      exact h,
    fun pl h => parseLine_depth_from_pipes.2 "│ b/".data 3 pl h⟩

/-- C9 (counterexample to the claim as stated) — two lines with equal pipe
counts need not land at the same tree depth: in the input
`a/ · │ │ b/ · c/ · │ d/ · │ │ e/` (lines separated by newlines) the lines
for `b` and `e` both have pipe count 2, yet `b` ends at depth 2 (child of
the depth-1 `a`, since nothing at indent 2 is open) while `e` ends at
depth 3 (below `c` and `d`). -/
theorem parse_depth_claim_counterexample :
    pipeCount "│ │ b/".data = pipeCount "│ │ e/".data ∧
    ((parse "a/\n│ │ b/\nc/\n│ d/\n│ │ e/".data).tree.map (fun t =>
      (nodeDepths t 0).contains ("b".data, 2) &&
        (nodeDepths t 0).contains ("e".data, 3))) = some true := by
  constructor
  · rfl
  · rfl

end FiletreeForge
